import Mathlib

/-!
Formal verification development for the `formatgloss` repository.

The repository ships a thin GUI entry script (`formatgloss.pyw`) around the
realignment engine of the `formatglosslib` package.  The engine itself is not
part of the available sources, so its data model and operations are modelled
here from the specification (each such definition carries a doc comment
starting with `Modelled from the spec:`).  The GUI entry script is embedded
from its source at the end of the definitions.

Text is modelled as lists of codepoints; a document is a list of lines.
-/

namespace Formatgloss

/-- Modelled from the spec: the classification of a single Unicode codepoint
used by the missing DisplayWidth component of `formatglosslib`:
{BASE, COMBINING_MARK, WIDE, ZERO_WIDTH_OTHER, PLAIN}. -/
inductive CharClass where
  | base
  | combiningMark
  | wide
  | zeroWidthOther
  | plain
  deriving DecidableEq, Repr

/-- Modelled from the spec: the display-width contribution of one codepoint
class: combining marks and zero-width/control codepoints contribute 0,
East-Asian wide codepoints 2, ordinary printable codepoints 1. -/
def CharClass.width : CharClass → Nat
  | .base => 1
  | .combiningMark => 0
  | .wide => 2
  | .zeroWidthOther => 0
  | .plain => 1

/-- Modelled from the spec: a Unicode scalar value together with its
classification, derived from static Unicode category tables. -/
structure Codepoint where
  code : Nat
  cls : CharClass
  deriving DecidableEq, Repr

/-- Display width of a single codepoint. -/
def Codepoint.width (c : Codepoint) : Nat := c.cls.width

/-- A codepoint is padding whitespace when it is the space or tab character
(the delimiters the source tool uses between fields). -/
def isWS (c : Codepoint) : Bool := c.code == 32 || c.code == 9

/-- One physical line of text, as a list of codepoints. -/
abbrev Line := List Codepoint

/-- Modelled from the spec: the display width of a piece of text is the sum
of the display widths of its codepoints (missing DisplayWidth component). -/
def displayWidth (l : Line) : Nat := (l.map Codepoint.width).sum

/-- The space codepoint (code 32, ordinary single-width character). -/
def spaceCp : Codepoint := ⟨32, .plain⟩

/-- A run of `n` literal space characters. -/
def spaces (n : Nat) : Line := List.replicate n spaceCp

/-- Boolean test that `p` is a leading segment of `l`. -/
def startsWith : Line → Line → Bool
  | [], _ => true
  | _ :: _, [] => false
  | a :: p, b :: l => (a == b) && startsWith p l

/-- Modelled from the spec: a usable tier-marker string is nonempty and
contains no padding whitespace. -/
def isValidMarker (m : Line) : Bool := (!m.isEmpty) && m.all (fun c => !isWS c)

/-- The character after a recognized marker must be a delimiter (space/tab)
or the end of the line. -/
def boundaryOk : Line → Bool
  | [] => true
  | c :: _ => isWS c

/-- Modelled from the spec: marker `m` matches line `l` when `m` is a valid
marker, `l` starts with `m`, and `m` is followed by a delimiter or the end
of the line. -/
def markerMatches (m l : Line) : Bool :=
  isValidMarker m && startsWith m l && boundaryOk (l.drop m.length)

/-- Modelled from the spec: the configuration supplied by the caller:
the recognized tier-marker strings and the minimum inter-column gap. -/
structure Config where
  tierMarkers : List Line
  spacingConstant : Nat
  deriving Repr

/-- Modelled from the spec: find the recognized tier marker carried by a
line, if any (first matching marker of the configuration). -/
def findMarker (cfg : Config) (l : Line) : Option Line :=
  cfg.tierMarkers.find? (fun m => markerMatches m l)

/-- Modelled from the spec: a line is "required by context" to be a tier
line when it begins with one of the recognized marker strings. -/
def lineIsMarked (cfg : Config) (l : Line) : Bool :=
  cfg.tierMarkers.any (fun m => isValidMarker m && startsWith m l)

/-- The leading maximal non-whitespace run of a line. -/
def takeField (l : Line) : Line := l.takeWhile (fun c => !isWS c)

/-- The line after its leading maximal non-whitespace run. -/
def dropField (l : Line) : Line := l.dropWhile (fun c => !isWS c)

/-- Fuel-driven worker for `splitWS`; the fuel only needs to dominate the
length of the line, so the top-level wrapper supplies exactly that. -/
def splitWSF : Nat → Line → List Line
  | 0, _ => []
  | _ + 1, [] => []
  | fuel + 1, c :: cs =>
    if isWS c then splitWSF fuel cs
    else (c :: takeField cs) :: splitWSF fuel (dropField cs)

/-- Modelled from the spec: split a line into its maximal non-whitespace
runs, discarding all padding whitespace (Tokenizer field splitting). -/
def splitWS (l : Line) : List Line := splitWSF l.length l

/-- Modelled from the spec: a Tier is the marker of one physical line, the
single delimiter separating the marker from its content (when the line has
content), and the ordered fields of the line. -/
structure Tier where
  marker : Line
  delim : Option Codepoint
  fields : List Line
  deriving DecidableEq, Repr

/-- Modelled from the spec: tokenize a line whose recognized marker is `m`:
strip the marker and the single delimiter following it, then split the rest
into fields on runs of whitespace.  A line with no content after the
delimiter yields zero fields (and records no delimiter). -/
def mkTier (m l : Line) : Tier :=
  match l.drop m.length with
  | [] => ⟨m, none, []⟩
  | d :: content =>
    ⟨m, if (splitWS content).isEmpty then none else some d, splitWS content⟩

/-- Modelled from the spec: the two core error kinds: a malformed line
(carrying the offending raw line) and an internal contract violation. -/
inductive FgError where
  | malformedLine (l : Line)
  | internalInvariant
  deriving DecidableEq, Repr

/-- A classified input line: either a tokenized tier line or an opaque
passthrough line retained verbatim. -/
inductive LineItem where
  | tierLine (t : Tier)
  | passthrough (l : Line)
  deriving DecidableEq, Repr

/-- Modelled from the spec: classify one line.  A line carrying a recognized
marker is tokenized into a Tier; a line that begins with a recognized marker
but cannot be tokenized is a `MalformedLineError`; any other line is
passthrough text. -/
def classifyLine (cfg : Config) (l : Line) : Except FgError LineItem :=
  match findMarker cfg l with
  | some m => .ok (.tierLine (mkTier m l))
  | none =>
    if lineIsMarked cfg l then .error (.malformedLine l) else .ok (.passthrough l)

/-- Classify every line of a document, aborting at the first error. -/
def classifyLines (cfg : Config) : List Line → Except FgError (List LineItem)
  | [] => .ok []
  | l :: ls =>
    match classifyLine cfg l with
    | .error e => .error e
    | .ok it =>
      match classifyLines cfg ls with
      | .error e => .error e
      | .ok its => .ok (it :: its)

/-- A scanned document block: a multi-tier record or one passthrough line. -/
inductive Block where
  | record (tiers : List Tier)
  | passthru (l : Line)
  deriving DecidableEq, Repr

/-- Emit the currently open record, if it has any tiers. -/
def flushRecord (cur : List Tier) : List Block :=
  if cur.isEmpty then [] else [.record cur]

/-- Modelled from the spec: the RecordScanner.  Consecutive tier lines
accumulate into the current record; a passthrough line closes the current
record; a tier line whose marker was already seen in the current record
closes it and starts a new record (marker-repetition boundary). -/
def scanItems : List LineItem → List Tier → List Line → List Block
  | [], cur, _ => flushRecord cur
  | .passthrough l :: its, cur, _ =>
    flushRecord cur ++ Block.passthru l :: scanItems its [] []
  | .tierLine t :: its, cur, seen =>
    if t.marker ∈ seen then flushRecord cur ++ scanItems its [t] [t.marker]
    else scanItems its (cur ++ [t]) (seen ++ [t.marker])

/-- The classified items a block accounts for, in order. -/
def blockItems : Block → List LineItem
  | .record ts => ts.map .tierLine
  | .passthru l => [.passthrough l]

/-- All items accounted for by a list of blocks, in order. -/
def itemsOf (bs : List Block) : List LineItem := (bs.map blockItems).flatten

/-- Maximum of a list of naturals (0 for the empty list). -/
def natMax (l : List Nat) : Nat := l.foldr max 0

/-- Modelled from the spec: the display width a tier contributes to column
`i`: the width of its field at index `i`, or 0 when the tier has no field
there. -/
def fieldWidthAt (t : Tier) (i : Nat) : Nat := displayWidth (t.fields.getD i [])

/-- The largest field count over the tiers of a record. -/
def maxFieldCount (ts : List Tier) : Nat := natMax (ts.map (fun t => t.fields.length))

/-- Modelled from the spec: the required width of column `i`: the maximum
over the record's tiers of the display width of the field at index `i`,
missing fields contributing 0. -/
def colWidth (ts : List Tier) (i : Nat) : Nat := natMax (ts.map (fun t => fieldWidthAt t i))

/-- Modelled from the spec: the ColumnModel: one required width per column
index from 0 to (max field count - 1). -/
def requiredWidths (ts : List Tier) : List Nat :=
  (List.range (maxFieldCount ts)).map (colWidth ts)

/-- Modelled from the spec: render the fields of one tier: each field is
followed by `widths[i] - display_width + spacing` literal spaces, except the
last field, which is followed by nothing.  `none` signals the internal
invariant violation of a width list shorter than the field list. -/
def renderFields (sp : Nat) : List Line → List Nat → Option Line
  | [], _ => some []
  | _ :: _, [] => none
  | [f], _ :: _ => some f
  | f :: f2 :: fs, w :: ws =>
    (renderFields sp (f2 :: fs) ws).map
      (fun rest => f ++ spaces (w - displayWidth f + sp) ++ rest)

/-- The delimiter of a tier as a (zero- or one-element) line. -/
def delimList : Option Codepoint → Line
  | some d => [d]
  | none => []

/-- The verbatim marker-and-delimiter text that opens a rendered tier line
with at least one field. -/
def tierHead (t : Tier) : Line := t.marker ++ delimList t.delim

/-- Modelled from the spec: the Realigner's per-tier rendering: the original
marker and its delimiter verbatim, then the padded fields.  A tier with zero
fields is rendered as its marker followed by nothing. -/
def renderTier (sp : Nat) (widths : List Nat) (t : Tier) : Option Line :=
  match t.fields with
  | [] => some t.marker
  | _ :: _ => (renderFields sp t.fields widths).map (fun body => tierHead t ++ body)

/-- Render every tier of a record against one shared width list. -/
def renderTiers (sp : Nat) (widths : List Nat) : List Tier → Option (List Line)
  | [] => some []
  | t :: ts =>
    match renderTier sp widths t, renderTiers sp widths ts with
    | some l, some ls => some (l :: ls)
    | _, _ => none

/-- Modelled from the spec: render one block: passthrough text is emitted
verbatim; a record is rendered against its required column widths. -/
def renderBlock (cfg : Config) : Block → Except FgError (List Line)
  | .passthru l => .ok [l]
  | .record ts =>
    match renderTiers cfg.spacingConstant (requiredWidths ts) ts with
    | some ls => .ok ls
    | none => .error .internalInvariant

/-- Render every block of a scanned document, aborting at the first error. -/
def renderBlocks (cfg : Config) : List Block → Except FgError (List Line)
  | [] => .ok []
  | b :: bs =>
    match renderBlock cfg b, renderBlocks cfg bs with
    | .ok ls, .ok rest => .ok (ls ++ rest)
    | .error e, _ => .error e
    | .ok _, .error e => .error e

/-- Modelled from the spec: the single entry point of the missing
`formatglosslib` engine: classify and scan the document, realign every
record, and reassemble the output; any error aborts the whole run. -/
def realign (cfg : Config) (d : List Line) : Except FgError (List Line) :=
  match classifyLines cfg d with
  | .error e => .error e
  | .ok items => renderBlocks cfg (scanItems items [] [])

/-- A line is malformed for the engine when it begins with a recognized
marker but carries no tokenizable marker. -/
def lineMalformed (cfg : Config) (l : Line) : Bool :=
  lineIsMarked cfg l && (findMarker cfg l).isNone

/-- The codepoint index, inside a rendered field body, at which field `i`
begins (field text plus padding of all earlier fields). -/
def fieldsStartIdx (sp : Nat) : List Line → List Nat → Nat → Nat
  | _, _, 0 => 0
  | [], _, _ + 1 => 0
  | _ :: _, [], _ + 1 => 0
  | f :: fs, w :: ws, i + 1 =>
    f.length + (w - displayWidth f + sp) + fieldsStartIdx sp fs ws i

/-- The codepoint index, inside a full rendered tier line, at which field
`i` begins. -/
def tierFieldStart (sp : Nat) (t : Tier) (widths : List Nat) (i : Nat) : Nat :=
  (tierHead t).length + fieldsStartIdx sp t.fields widths i

/-- The display-width column at which field `i` begins on rendered line `r`:
the total display width of the characters preceding it. -/
def startColumn (sp : Nat) (t : Tier) (widths : List Nat) (i : Nat) (r : Line) : Nat :=
  displayWidth (r.take (tierFieldStart sp t widths i))

/-- The shared display-width offset, from the end of the marker-and-delimiter
head, at which column `i` begins: earlier column widths plus gaps. -/
def colOffset (sp : Nat) : List Nat → Nat → Nat
  | _, 0 => 0
  | [], _ + 1 => 0
  | w :: ws, i + 1 => w + sp + colOffset sp ws i

/-- The number of padding spaces the Realigner emits after field `i` of a
tier (when that field is not the last of its tier). -/
def padLen (sp : Nat) (widths : List Nat) (t : Tier) (i : Nat) : Nat :=
  widths.getD i 0 - displayWidth (t.fields.getD i []) + sp

/-- Well-formedness of a tier produced by the tokenizer: its marker is a
recognized valid marker, its fields are nonempty and whitespace-free, its
delimiter is whitespace and present exactly when the tier has fields. -/
structure TierWF (cfg : Config) (t : Tier) : Prop where
  markerMem : t.marker ∈ cfg.tierMarkers
  markerValid : isValidMarker t.marker = true
  fieldsNonempty : ∀ f ∈ t.fields, f ≠ []
  fieldsNoWS : ∀ f ∈ t.fields, ∀ c ∈ f, isWS c = false
  delimWS : ∀ d, t.delim = some d → isWS d = true
  delimOfFields : t.fields ≠ [] → t.delim.isSome = true
  delimOfNoFields : t.fields = [] → t.delim = none

/-- Well-formedness of a classified item: tier items are well-formed tiers,
passthrough items reclassify to themselves. -/
def ItemWF (cfg : Config) : LineItem → Prop
  | .tierLine t => TierWF cfg t
  | .passthrough l => classifyLine cfg l = .ok (.passthrough l)

/-- Shallow embedding of `src/formatgloss.pyw`: the observable effects a
statement of the GUI entry script can perform. -/
inductive GuiEffect where
  | createWxApp
  | createResultsWindow (parent : Option Nat)
  | runMainLoop
  | realignText
  | tokenizeText
  | fileRead
  | fileWrite
  deriving DecidableEq, Repr

/-- The effects of `main` in `src/formatgloss.pyw`, statement by statement:
`wxapp = wx.App()`, `formatglosslib.gui.ResultsWindow(parent=None)`,
`wxapp.MainLoop()`. -/
def mainEffects : List GuiEffect :=
  [.createWxApp, .createResultsWindow none, .runMainLoop]

/-- The effects of loading `src/formatgloss.pyw` as a module with the given
`__name__`: the script body only defines `main` and runs it under the
`__name__ == '__main__'` guard. -/
def moduleEffects (moduleName : String) : List GuiEffect :=
  if moduleName = "__main__" then mainEffects else []

/-- Concrete codepoint: the letter a, an ordinary printable character. -/
def cpA : Codepoint := ⟨97, .plain⟩

/-- Concrete codepoint: the letter b, an ordinary printable character. -/
def cpB : Codepoint := ⟨98, .plain⟩

/-- Concrete codepoint: the letter x, an ordinary printable character. -/
def cpX : Codepoint := ⟨120, .plain⟩

/-- Concrete codepoint: the letter y, an ordinary printable character. -/
def cpY : Codepoint := ⟨121, .plain⟩

/-- Concrete codepoint: the letter p as a base letter. -/
def cpBase : Codepoint := ⟨112, .base⟩

/-- Concrete codepoint: the combining acute accent (U+0301). -/
def cpMark : Codepoint := ⟨769, .combiningMark⟩

/-- Configuration with markers of different lengths, used to exhibit the
absolute-column misalignment between tiers with unequal marker widths. -/
def alignCexCfg : Config := ⟨[[cpA], [cpA, cpB]], 1⟩

/-- Two-tier record whose markers have display widths 1 and 2. -/
def alignCexDoc : List Line := [[cpA, spaceCp, cpX], [cpA, cpB, spaceCp, cpY]]

/-- The tokenized first tier of `alignCexDoc`. -/
def alignCexTier1 : Tier := ⟨[cpA], some spaceCp, [[cpX]]⟩

/-- The tokenized second tier of `alignCexDoc`. -/
def alignCexTier2 : Tier := ⟨[cpA, cpB], some spaceCp, [[cpY]]⟩

/-- Configuration with a zero spacing constant, on which realignment can
merge adjacent fields and lose idempotence. -/
def idemCexCfg : Config := ⟨[[cpA], [cpB]], 0⟩

/-- Two-tier record on which `idemCexCfg` realignment is not idempotent. -/
def idemCexDoc : List Line :=
  [[cpA, spaceCp, cpX, cpX, spaceCp, cpY], [cpB, spaceCp, cpX, spaceCp, cpY, cpY]]

/-- First realignment of `idemCexDoc` under `idemCexCfg`: the two fields of
the first tier merge into one. -/
def idemCexMid : List Line :=
  [[cpA, spaceCp, cpX, cpX, cpY], [cpB, spaceCp, cpX, spaceCp, cpY, cpY]]

/-- Second realignment of `idemCexMid` under `idemCexCfg`: the merged field
widens column 0, shifting the second tier. -/
def idemCexMid2 : List Line :=
  [[cpA, spaceCp, cpX, cpX, cpY], [cpB, spaceCp, cpX, spaceCp, spaceCp, cpY, cpY]]

/-- Default configuration (spacing 1) used by the concrete witnesses. -/
def wCfg : Config := ⟨[[cpA], [cpB]], 1⟩

/-- Two-tier document with a combining mark in the first tier. -/
def wDoc : List Line :=
  [[cpA, spaceCp, cpX, cpMark, cpX, spaceCp, cpY],
   [cpB, spaceCp, cpX, cpX, cpX, spaceCp, cpY]]

/-- The realigned `wDoc`: the diacritic-bearing field is padded by display
width, so both second fields start at the same display column. -/
def wOut : List Line :=
  [[cpA, spaceCp, cpX, cpMark, cpX, spaceCp, spaceCp, cpY],
   [cpB, spaceCp, cpX, cpX, cpX, spaceCp, cpY]]

/-- The tokenized first tier of `wDoc`. -/
def wTierA : Tier := ⟨[cpA], some spaceCp, [[cpX, cpMark, cpX], [cpY]]⟩

/-- The tokenized second tier of `wDoc`. -/
def wTierB : Tier := ⟨[cpB], some spaceCp, [[cpX, cpX, cpX], [cpY]]⟩

/-- `wTierA` rendered against the width list `[5, 2]`. -/
def c3line : Line :=
  [cpA, spaceCp, cpX, cpMark, cpX, spaceCp, spaceCp, spaceCp, spaceCp, cpY]

/-- A zero-field tier carrying the marker a. -/
def zTierA : Tier := ⟨[cpA], none, []⟩

/-- A zero-field tier carrying the marker b. -/
def zTierB : Tier := ⟨[cpB], none, []⟩

/-! ## Basic lemmas about widths and whitespace -/

theorem displayWidth_nil : displayWidth [] = 0 := rfl

theorem displayWidth_cons (c : Codepoint) (l : Line) :
    displayWidth (c :: l) = c.width + displayWidth l := by
  simp [displayWidth]

theorem displayWidth_append (a b : Line) :
    displayWidth (a ++ b) = displayWidth a + displayWidth b := by
  simp [displayWidth]

theorem spaceCp_width : spaceCp.width = 1 := rfl

theorem spaceCp_ws : isWS spaceCp = true := rfl

theorem displayWidth_spaces (n : Nat) : displayWidth (spaces n) = n := by
  induction n with
  | zero => rfl
  | succ n ih =>
    rw [spaces, List.replicate_succ, displayWidth_cons, ← spaces, ih]
    simp [spaceCp_width, Nat.add_comm]

theorem spaces_succ (n : Nat) : spaces (n + 1) = spaceCp :: spaces n :=
  List.replicate_succ ..

theorem startsWith_self_append (p s : Line) : startsWith p (p ++ s) = true := by
  induction p with
  | nil => rfl
  | cons a p ih => simp [startsWith, ih]

theorem startsWith_exists {p l : Line} (h : startsWith p l = true) :
    ∃ s, l = p ++ s := by
  induction p generalizing l with
  | nil => exact ⟨l, rfl⟩
  | cons a p ih =>
    cases l with
    | nil => simp [startsWith] at h
    | cons b l =>
      simp only [startsWith, Bool.and_eq_true, beq_iff_eq] at h
      obtain ⟨s, hs⟩ := ih h.2
      exact ⟨s, by rw [hs, h.1]; rfl⟩

/-! ## Lemmas about field splitting -/

theorem takeField_app (l r : Line) (hl : ∀ c ∈ l, isWS c = false)
    (hr : boundaryOk r = true) : takeField (l ++ r) = l := by
  induction l with
  | nil =>
    cases r with
    | nil => rfl
    | cons c cs =>
      simp only [boundaryOk] at hr
      simp [takeField, List.takeWhile_cons, hr]
  | cons c cs ih =>
    have hc := hl c (by simp)
    simp only [List.cons_append, takeField, List.takeWhile_cons, hc,
      Bool.not_false, if_true]
    have := ih (fun x hx => hl x (by simp [hx]))
    simp only [takeField] at this
    rw [this]

theorem dropField_app (l r : Line) (hl : ∀ c ∈ l, isWS c = false)
    (hr : boundaryOk r = true) : dropField (l ++ r) = r := by
  induction l with
  | nil =>
    cases r with
    | nil => rfl
    | cons c cs =>
      simp only [boundaryOk] at hr
      simp [dropField, List.dropWhile_cons, hr]
  | cons c cs ih =>
    have hc := hl c (by simp)
    simp only [List.cons_append, dropField, List.dropWhile_cons, hc,
      Bool.not_false, if_true]
    exact ih (fun x hx => hl x (by simp [hx]))

theorem dropField_length_le (l : Line) : (dropField l).length ≤ l.length :=
  (List.dropWhile_sublist _).length_le

theorem splitWSF_congr :
    ∀ (fuel1 : Nat) (fuel2 : Nat) (l : Line), l.length ≤ fuel1 → l.length ≤ fuel2 →
      splitWSF fuel1 l = splitWSF fuel2 l := by
  intro fuel1
  induction fuel1 with
  | zero =>
    intro fuel2 l h1 _
    have : l = [] := List.eq_nil_of_length_eq_zero (Nat.le_zero.mp h1)
    rw [this]
    cases fuel2 <;> rfl
  | succ f ih =>
    intro fuel2 l h1 h2
    cases l with
    | nil => cases fuel2 <;> rfl
    | cons c cs =>
      cases fuel2 with
      | zero => simp at h2
      | succ f2 =>
        simp only [splitWSF]
        by_cases hc : isWS c = true
        · rw [if_pos hc, if_pos hc]
          exact ih f2 cs (by simpa using h1) (by simpa using h2)
        · rw [if_neg hc, if_neg hc]
          congr 1
          exact ih f2 (dropField cs)
            (le_trans (dropField_length_le cs) (by simpa using h1))
            (le_trans (dropField_length_le cs) (by simpa using h2))

theorem splitWS_nil : splitWS [] = [] := rfl

theorem splitWS_cons_ws (c : Codepoint) (cs : Line) (h : isWS c = true) :
    splitWS (c :: cs) = splitWS cs := by
  unfold splitWS
  have : splitWSF ((c :: cs).length) (c :: cs) = splitWSF cs.length cs := by
    simp only [List.length_cons, splitWSF, if_pos h]
  rw [this]

theorem splitWS_cons_field (c : Codepoint) (cs : Line) (h : isWS c = false) :
    splitWS (c :: cs) = (c :: takeField cs) :: splitWS (dropField cs) := by
  unfold splitWS
  have h1 : splitWSF ((c :: cs).length) (c :: cs) =
      (c :: takeField cs) :: splitWSF cs.length (dropField cs) := by
    simp only [List.length_cons, splitWSF, h]
    rw [if_neg (by simp)]
  rw [h1]
  congr 1
  exact splitWSF_congr cs.length (dropField cs).length (dropField cs)
    (dropField_length_le cs) (Nat.le_refl _)

theorem splitWS_spaces_app (n : Nat) (l : Line) :
    splitWS (spaces n ++ l) = splitWS l := by
  induction n with
  | zero => rfl
  | succ n ih =>
    rw [spaces_succ, List.cons_append, splitWS_cons_ws _ _ spaceCp_ws, ih]

theorem splitWS_field_app (f r : Line) (hne : f ≠ [])
    (hf : ∀ c ∈ f, isWS c = false) (hr : boundaryOk r = true) :
    splitWS (f ++ r) = f :: splitWS r := by
  cases f with
  | nil => exact absurd rfl hne
  | cons c cs =>
    have hc := hf c (by simp)
    have hcs : ∀ x ∈ cs, isWS x = false := fun x hx => hf x (by simp [hx])
    rw [List.cons_append, splitWS_cons_field _ _ hc,
      takeField_app cs r hcs hr, dropField_app cs r hcs hr]

theorem splitWS_rec_aux (P : Line → Prop) (h0 : P [])
    (hws : ∀ c cs, isWS c = true → P cs → P (c :: cs))
    (hfd : ∀ c cs, isWS c = false → P (dropField cs) → P (c :: cs)) :
    ∀ l, P l := by
  have key : ∀ (n : Nat) (l : Line), l.length ≤ n → P l := by
    intro n
    induction n with
    | zero =>
      intro l h
      rw [List.eq_nil_of_length_eq_zero (Nat.le_zero.mp h)]
      exact h0
    | succ n ih =>
      intro l h
      cases l with
      | nil => exact h0
      | cons c cs =>
        cases hc : isWS c with
        | true => exact hws c cs hc (ih cs (by simpa using h))
        | false =>
          exact hfd c cs hc
            (ih (dropField cs) (le_trans (dropField_length_le cs) (by simpa using h)))
  exact fun l => key l.length l (Nat.le_refl _)

theorem splitWS_mem {l : Line} {f : Line} (h : f ∈ splitWS l) :
    f ≠ [] ∧ ∀ c ∈ f, isWS c = false := by
  induction l using splitWS_rec_aux with
  | h0 => simp [splitWS_nil] at h
  | hws c cs hc ih =>
    rw [splitWS_cons_ws c cs hc] at h
    exact ih h
  | hfd c cs hc ih =>
    rw [splitWS_cons_field c cs hc] at h
    rcases List.mem_cons.mp h with heq | hmem
    · subst heq
      refine ⟨by simp, ?_⟩
      intro x hx
      rcases List.mem_cons.mp hx with rfl | hx'
      · exact hc
      · have := List.mem_takeWhile_imp (l := cs) (p := fun c => !isWS c) hx'
        simpa using this
    · exact ih hmem

theorem splitWS_flatten (l : Line) :
    (splitWS l).flatten = l.filter (fun c => !isWS c) := by
  induction l using splitWS_rec_aux with
  | h0 => simp [splitWS_nil]
  | hws c cs hc ih =>
    rw [splitWS_cons_ws c cs hc, List.filter_cons_of_neg (by simp [hc]), ih]
  | hfd c cs hc ih =>
    rw [splitWS_cons_field c cs hc, List.filter_cons_of_pos (by simp [hc])]
    simp only [List.flatten_cons, List.cons_append]
    congr 1
    rw [ih]
    have hsplit : cs = takeField cs ++ dropField cs :=
      (List.takeWhile_append_dropWhile ..).symm
    conv_rhs => rw [hsplit]
    rw [List.filter_append]
    congr 1
    exact (List.filter_eq_self.mpr
      (fun a ha => List.mem_takeWhile_imp (p := fun c => !isWS c) ha)).symm

/-! ## Lemmas about marker recognition -/

theorem take_self_append (a b : Line) : (a ++ b).take a.length = a :=
  List.take_left a b

theorem drop_self_append (a b : Line) : (a ++ b).drop a.length = b :=
  List.drop_left a b

theorem isValidMarker_elim {m : Line} (h : isValidMarker m = true) :
    m ≠ [] ∧ ∀ c ∈ m, isWS c = false := by
  simp only [isValidMarker, Bool.and_eq_true, Bool.not_eq_true',
    List.all_eq_true] at h
  refine ⟨?_, h.2⟩
  intro hnil
  rw [hnil] at h
  simp at h

theorem markerMatches_elim {m l : Line} (h : markerMatches m l = true) :
    isValidMarker m = true ∧ ∃ s, l = m ++ s ∧ boundaryOk s = true := by
  simp only [markerMatches, Bool.and_eq_true] at h
  obtain ⟨⟨hv, hs⟩, hb⟩ := h
  obtain ⟨s, rfl⟩ := startsWith_exists hs
  rw [drop_self_append] at hb
  exact ⟨hv, s, rfl, hb⟩

theorem markerMatches_self (m rest : Line) (hv : isValidMarker m = true)
    (hb : boundaryOk rest = true) : markerMatches m (m ++ rest) = true := by
  simp only [markerMatches, Bool.and_eq_true]
  exact ⟨⟨hv, startsWith_self_append m rest⟩, by rw [drop_self_append]; exact hb⟩

theorem markerMatches_unique {m m' rest : Line} (hv : isValidMarker m = true)
    (hb : boundaryOk rest = true) (h : markerMatches m' (m ++ rest) = true) :
    m' = m := by
  obtain ⟨hv', s', heq, hb'⟩ := markerMatches_elim h
  rcases List.append_eq_append_iff.mp heq with ⟨k, hk1, hk2⟩ | ⟨k, hk1, hk2⟩
  · cases k with
    | nil => simpa using hk1
    | cons c k' =>
      have hcm : isWS c = true := by
        rw [hk2] at hb
        simpa [boundaryOk] using hb
      have hcv : isWS c = false := (isValidMarker_elim hv').2 c (by simp [hk1])
      rw [hcm] at hcv
      cases hcv
  · cases k with
    | nil => simpa using hk1.symm
    | cons c k' =>
      have hcm : isWS c = true := by
        rw [hk2] at hb'
        simpa [boundaryOk] using hb'
      have hcv : isWS c = false := (isValidMarker_elim hv).2 c (by simp [hk1])
      rw [hcm] at hcv
      cases hcv

theorem find?_eq_of_unique {p : Line → Bool} {ms : List Line} {m : Line}
    (hmem : m ∈ ms) (hm : p m = true) (huniq : ∀ m', p m' = true → m' = m) :
    ms.find? p = some m := by
  induction ms with
  | nil => simp at hmem
  | cons a t ih =>
    by_cases ha : p a = true
    · rw [List.find?_cons_of_pos _ ha, huniq a ha]
    · rcases List.mem_cons.mp hmem with rfl | hmem'
      · exact absurd hm ha
      · rw [List.find?_cons_of_neg _ ha]
        exact ih hmem'

theorem findMarker_spec {cfg : Config} {l m : Line}
    (h : findMarker cfg l = some m) :
    m ∈ cfg.tierMarkers ∧ markerMatches m l = true := by
  unfold findMarker at h
  have h1 := List.mem_of_find?_eq_some h
  have h2 := List.find?_some h
  exact ⟨h1, h2⟩

theorem findMarker_append {cfg : Config} {m : Line} (rest : Line)
    (hmem : m ∈ cfg.tierMarkers) (hv : isValidMarker m = true)
    (hb : boundaryOk rest = true) : findMarker cfg (m ++ rest) = some m := by
  unfold findMarker
  exact find?_eq_of_unique hmem (markerMatches_self m rest hv hb)
    (fun _ h => markerMatches_unique hv hb h)

/-! ## Lemmas about line classification -/

theorem mkTier_eq_nil {m l : Line} (h : l.drop m.length = []) :
    mkTier m l = ⟨m, none, []⟩ := by
  unfold mkTier
  rw [h]

theorem mkTier_eq_cons {m l : Line} {d : Codepoint} {content : Line}
    (h : l.drop m.length = d :: content) :
    mkTier m l =
      ⟨m, if (splitWS content).isEmpty then none else some d, splitWS content⟩ := by
  unfold mkTier
  rw [h]

theorem classifyLine_tier_elim {cfg : Config} {l : Line} {t : Tier}
    (h : classifyLine cfg l = .ok (.tierLine t)) :
    ∃ m, findMarker cfg l = some m ∧ t = mkTier m l := by
  unfold classifyLine at h
  split at h
  next m hfm =>
    simp only [Except.ok.injEq, LineItem.tierLine.injEq] at h
    exact ⟨m, hfm, h.symm⟩
  next hfm =>
    split at h <;> simp at h

theorem classifyLine_pass_elim {cfg : Config} {l l' : Line}
    (h : classifyLine cfg l = .ok (.passthrough l')) :
    l' = l ∧ findMarker cfg l = none ∧ lineIsMarked cfg l = false := by
  unfold classifyLine at h
  split at h
  next m hfm => simp at h
  next hfm =>
    split at h
    next hmk => simp at h
    next hmk =>
      simp only [Except.ok.injEq, LineItem.passthrough.injEq] at h
      exact ⟨h.symm, hfm, by simpa using hmk⟩

theorem mkTier_wf {cfg : Config} {m l : Line} (hmem : m ∈ cfg.tierMarkers)
    (hmatch : markerMatches m l = true) : TierWF cfg (mkTier m l) := by
  obtain ⟨hv, s, rfl, hb⟩ := markerMatches_elim hmatch
  have hdrop : (m ++ s).drop m.length = s := drop_self_append m s
  cases s with
  | nil =>
    rw [mkTier_eq_nil hdrop]
    exact ⟨hmem, hv, by simp, by simp, by simp, by simp, fun _ => rfl⟩
  | cons d content =>
    have hd : isWS d = true := by simpa [boundaryOk] using hb
    by_cases he : (splitWS content).isEmpty = true
    · rw [mkTier_eq_cons hdrop, if_pos he]
      refine ⟨hmem, hv, fun f hf => (splitWS_mem hf).1,
        fun f hf => (splitWS_mem hf).2, ?_, ?_, fun _ => rfl⟩
      · intro d' hd'
        cases hd'
      · intro hne
        exact absurd (List.isEmpty_iff.mp he) hne
    · rw [mkTier_eq_cons hdrop, if_neg he]
      refine ⟨hmem, hv, fun f hf => (splitWS_mem hf).1,
        fun f hf => (splitWS_mem hf).2, ?_, fun _ => rfl, ?_⟩
      · intro d' hd'
        cases hd'
        exact hd
      · intro hnil
        exact absurd hnil (by simpa using he)

theorem classifyLine_wf {cfg : Config} {l : Line} {it : LineItem}
    (h : classifyLine cfg l = .ok it) : ItemWF cfg it := by
  cases it with
  | tierLine t =>
    obtain ⟨m, hfm, rfl⟩ := classifyLine_tier_elim h
    obtain ⟨hmem, hmatch⟩ := findMarker_spec hfm
    exact mkTier_wf hmem hmatch
  | passthrough l' =>
    obtain ⟨rfl, _, _⟩ := classifyLine_pass_elim h
    exact h

/-! ## Lemmas about rendering -/

theorem renderFields_isSome (sp : Nat) :
    ∀ (fields : List Line) (widths : List Nat), fields.length ≤ widths.length →
      ∃ body, renderFields sp fields widths = some body := by
  intro fields
  induction fields with
  | nil => exact fun _ _ => ⟨[], rfl⟩
  | cons f fs ih =>
    intro widths hlen
    cases widths with
    | nil => simp at hlen
    | cons w ws =>
      cases fs with
      | nil => exact ⟨f, rfl⟩
      | cons f2 fs2 =>
        obtain ⟨rest, hrest⟩ := ih ws (by simpa using hlen)
        exact ⟨f ++ spaces (w - displayWidth f + sp) ++ rest, by
          simp [renderFields, hrest]⟩

theorem spaces_boundary {sp : Nat} (hsp : 1 ≤ sp) (l : Line) :
    boundaryOk (spaces sp ++ l) = true := by
  obtain ⟨k, hk⟩ := Nat.exists_eq_add_of_le hsp
  rw [hk, Nat.add_comm, spaces_succ]
  rfl

theorem splitWS_renderFields {sp : Nat} (hsp : 1 ≤ sp) :
    ∀ (fields : List Line) (widths : List Nat) (body : Line),
      renderFields sp fields widths = some body →
      (∀ f ∈ fields, f ≠ []) → (∀ f ∈ fields, ∀ c ∈ f, isWS c = false) →
      splitWS body = fields := by
  intro fields
  induction fields with
  | nil =>
    intro widths body h _ _
    simp only [renderFields, Option.some.injEq] at h
    rw [← h, splitWS_nil]
  | cons f fs ih =>
    intro widths body h hne hws
    cases widths with
    | nil => simp [renderFields] at h
    | cons w ws =>
      cases fs with
      | nil =>
        simp only [renderFields, Option.some.injEq] at h
        rw [← h]
        have := splitWS_field_app f [] (hne f (by simp))
          (fun c hc => hws f (by simp) c hc) (by rfl)
        rw [List.append_nil] at this
        rw [this, splitWS_nil]
      | cons f2 fs2 =>
        simp only [renderFields] at h
        cases hrest : renderFields sp (f2 :: fs2) ws with
        | none => rw [hrest] at h; simp at h
        | some rest =>
          rw [hrest] at h
          simp only [Option.map_some', Option.some.injEq] at h
          have hpad : 1 ≤ w - displayWidth f + sp := le_trans hsp (Nat.le_add_left sp _)
          have hbd : boundaryOk (spaces (w - displayWidth f + sp) ++ rest) = true := by
            obtain ⟨k, hk⟩ := Nat.exists_eq_add_of_le hpad
            rw [hk, Nat.add_comm, spaces_succ]
            rfl
          have hgoal : splitWS (f ++ (spaces (w - displayWidth f + sp) ++ rest)) =
              f :: f2 :: fs2 := by
            rw [splitWS_field_app f (spaces (w - displayWidth f + sp) ++ rest)
              (hne f (by simp)) (fun c hc => hws f (by simp) c hc) hbd,
              splitWS_spaces_app]
            congr 1
            exact ih ws rest hrest (fun g hg => hne g (by simp [hg]))
              (fun g hg => hws g (by simp [hg]))
          rw [← h]
          simpa [List.append_assoc] using hgoal

theorem filter_spaces (n : Nat) : (spaces n).filter (fun c => !isWS c) = [] := by
  induction n with
  | zero => rfl
  | succ n ih => rw [spaces_succ, List.filter_cons_of_neg (by simp [spaceCp_ws]), ih]

theorem filter_renderFields (sp : Nat) :
    ∀ (fields : List Line) (widths : List Nat) (body : Line),
      renderFields sp fields widths = some body →
      (∀ f ∈ fields, ∀ c ∈ f, isWS c = false) →
      body.filter (fun c => !isWS c) = fields.flatten := by
  intro fields
  induction fields with
  | nil =>
    intro widths body h _
    simp only [renderFields, Option.some.injEq] at h
    rw [← h]
    rfl
  | cons f fs ih =>
    intro widths body h hws
    cases widths with
    | nil => simp [renderFields] at h
    | cons w ws =>
      have hfself : f.filter (fun c => !isWS c) = f :=
        List.filter_eq_self.mpr (fun c hc => by simp [hws f (by simp) c hc])
      cases fs with
      | nil =>
        simp only [renderFields, Option.some.injEq] at h
        rw [← h]
        simpa using hfself
      | cons f2 fs2 =>
        simp only [renderFields] at h
        cases hrest : renderFields sp (f2 :: fs2) ws with
        | none => rw [hrest] at h; simp at h
        | some rest =>
          rw [hrest] at h
          simp only [Option.map_some', Option.some.injEq] at h
          rw [← h, List.filter_append, List.filter_append, hfself, filter_spaces,
            ih ws rest hrest (fun g hg => hws g (by simp [hg]))]
          simp

theorem renderTier_classify {cfg : Config} {sp : Nat} {t : Tier}
    {widths : List Nat} {r : Line} (hwf : TierWF cfg t) (hsp : 1 ≤ sp)
    (hr : renderTier sp widths t = some r) :
    classifyLine cfg r = .ok (.tierLine t) := by
  cases t with
  | mk marker delim fields =>
    cases fields with
    | nil =>
      simp only [renderTier, Option.some.injEq] at hr
      have hdn : delim = none := hwf.delimOfNoFields rfl
      subst hdn
      rw [← hr]
      have hfm : findMarker cfg marker = some marker := by
        have := findMarker_append [] hwf.markerMem hwf.markerValid rfl
        simpa using this
      have hcl : classifyLine cfg marker = .ok (.tierLine (mkTier marker marker)) := by
        unfold classifyLine
        rw [hfm]
      rw [hcl, mkTier_eq_nil (by simp)]
    | cons f fs =>
      obtain ⟨d, hd⟩ := Option.isSome_iff_exists.mp (hwf.delimOfFields (by simp))
      have hd' : delim = some d := hd
      subst hd'
      have hdws : isWS d = true := hwf.delimWS d rfl
      simp only [renderTier] at hr
      cases hbody : renderFields sp (f :: fs) widths with
      | none => rw [hbody] at hr; simp at hr
      | some body =>
        rw [hbody] at hr
        simp only [Option.map_some', Option.some.injEq] at hr
        have hsplit : splitWS body = f :: fs :=
          splitWS_renderFields hsp (f :: fs) widths body hbody
            (fun g hg => hwf.fieldsNonempty g hg)
            (fun g hg => hwf.fieldsNoWS g hg)
        have hrform : r = marker ++ (d :: body) := by
          rw [← hr]
          simp [tierHead, delimList]
        have hfm : findMarker cfg r = some marker := by
          rw [hrform]
          exact findMarker_append (d :: body) hwf.markerMem hwf.markerValid
            (by simpa [boundaryOk] using hdws)
        have hdrop : r.drop marker.length = d :: body := by
          rw [hrform]
          exact drop_self_append marker (d :: body)
        have hcl : classifyLine cfg r = .ok (.tierLine (mkTier marker r)) := by
          unfold classifyLine
          rw [hfm]
        rw [hcl, mkTier_eq_cons hdrop, hsplit]
        simp

/-! ## Lemmas about the column model -/

theorem le_natMax_of_mem {l : List Nat} {a : Nat} (h : a ∈ l) : a ≤ natMax l := by
  induction l with
  | nil => simp at h
  | cons b t ih =>
    rcases List.mem_cons.mp h with rfl | h'
    · exact Nat.le_max_left _ _
    · exact le_trans (ih h') (Nat.le_max_right _ _)

theorem natMax_eq_zero_or_mem (l : List Nat) : natMax l = 0 ∨ natMax l ∈ l := by
  induction l with
  | nil => exact Or.inl rfl
  | cons b t ih =>
    have hmax : natMax (b :: t) = max b (natMax t) := rfl
    rcases Nat.le_total b (natMax t) with hle | hle
    · rcases ih with h0 | hmem
      · rw [hmax, h0]
        rcases Nat.le_antisymm (h0 ▸ hle) (Nat.zero_le b) with hb
        rw [← hb]
        simp
      · right
        rw [hmax, Nat.max_eq_right hle]
        exact List.mem_cons_of_mem b hmem
    · right
      rw [hmax, Nat.max_eq_left hle]
      exact List.mem_cons_self b t

theorem fields_length_le_maxFieldCount {ts : List Tier} {t : Tier} (h : t ∈ ts) :
    t.fields.length ≤ maxFieldCount ts :=
  le_natMax_of_mem (List.mem_map_of_mem _ h)

theorem fieldWidthAt_le_colWidth {ts : List Tier} {t : Tier} (h : t ∈ ts) (i : Nat) :
    fieldWidthAt t i ≤ colWidth ts i :=
  le_natMax_of_mem (List.mem_map_of_mem _ h)

theorem requiredWidths_length (ts : List Tier) :
    (requiredWidths ts).length = maxFieldCount ts := by
  simp [requiredWidths]

theorem requiredWidths_getD {ts : List Tier} {i : Nat} (h : i < maxFieldCount ts) :
    (requiredWidths ts).getD i 0 = colWidth ts i := by
  unfold requiredWidths
  rw [List.getD_eq_getElem?_getD, List.getElem?_map, List.getElem?_range h]
  rfl

theorem requiredWidths_bound {ts : List Tier} {t : Tier} (ht : t ∈ ts) {i : Nat}
    (hi : i < t.fields.length) :
    displayWidth (t.fields.getD i []) ≤ (requiredWidths ts).getD i 0 := by
  have h1 : i < maxFieldCount ts :=
    lt_of_lt_of_le hi (fields_length_le_maxFieldCount ht)
  rw [requiredWidths_getD h1]
  exact fieldWidthAt_le_colWidth ht i

/-! ## Lemmas about rendering whole records -/

theorem renderTier_isSome (sp : Nat) {t : Tier} {widths : List Nat}
    (h : t.fields.length ≤ widths.length) :
    ∃ r, renderTier sp widths t = some r := by
  cases hf : t.fields with
  | nil => exact ⟨t.marker, by simp [renderTier, hf]⟩
  | cons f fs =>
    obtain ⟨body, hbody⟩ := renderFields_isSome sp (f :: fs) widths (hf ▸ h)
    exact ⟨tierHead t ++ body, by simp [renderTier, hf, hbody]⟩

theorem renderTiers_isSome (sp : Nat) (widths : List Nat) :
    ∀ {ts : List Tier}, (∀ t ∈ ts, t.fields.length ≤ widths.length) →
      ∃ ls, renderTiers sp widths ts = some ls := by
  intro ts
  induction ts with
  | nil => exact fun _ => ⟨[], rfl⟩
  | cons t ts ih =>
    intro h
    obtain ⟨r, hr⟩ := renderTier_isSome sp (h t (by simp))
    obtain ⟨ls, hls⟩ := ih (fun t' ht' => h t' (by simp [ht']))
    exact ⟨r :: ls, by simp [renderTiers, hr, hls]⟩

theorem renderBlock_record_ok {cfg : Config} (ts : List Tier) :
    ∃ ls, renderBlock cfg (.record ts) = .ok ls := by
  obtain ⟨ls, hls⟩ := renderTiers_isSome cfg.spacingConstant (requiredWidths ts)
    (fun t ht => by rw [requiredWidths_length]; exact fields_length_le_maxFieldCount ht)
  exact ⟨ls, by simp [renderBlock, hls]⟩

/-! ## Lemmas about the scanner -/

theorem itemsOf_nil : itemsOf [] = [] := rfl

theorem itemsOf_cons (b : Block) (bs : List Block) :
    itemsOf (b :: bs) = blockItems b ++ itemsOf bs := by
  simp [itemsOf]

theorem itemsOf_append (a b : List Block) :
    itemsOf (a ++ b) = itemsOf a ++ itemsOf b := by
  simp [itemsOf]

theorem itemsOf_flushRecord (cur : List Tier) :
    itemsOf (flushRecord cur) = cur.map LineItem.tierLine := by
  by_cases h : cur.isEmpty = true
  · rw [List.isEmpty_iff.mp h]
    simp [flushRecord, itemsOf]
  · simp [flushRecord, h, itemsOf, blockItems]

theorem scanItems_content :
    ∀ (its : List LineItem) (cur : List Tier) (seen : List Line),
      itemsOf (scanItems its cur seen) = cur.map LineItem.tierLine ++ its := by
  intro its
  induction its with
  | nil =>
    intro cur seen
    simp [scanItems, itemsOf_flushRecord]
  | cons it rest ih =>
    intro cur seen
    cases it with
    | passthrough l =>
      rw [scanItems, itemsOf_append, itemsOf_flushRecord, itemsOf_cons, ih [] []]
      simp [blockItems]
    | tierLine t =>
      by_cases hmem : t.marker ∈ seen
      · rw [scanItems, if_pos hmem, itemsOf_append, itemsOf_flushRecord,
          ih [t] [t.marker]]
        simp
      · rw [scanItems, if_neg hmem, ih (cur ++ [t]) (seen ++ [t.marker])]
        simp

/-! ## Lemmas about classifying whole documents -/

theorem classifyLines_cons_elim {cfg : Config} {l : Line} {ls : List Line}
    {items : List LineItem} (h : classifyLines cfg (l :: ls) = .ok items) :
    ∃ it its, classifyLine cfg l = .ok it ∧ classifyLines cfg ls = .ok its ∧
      items = it :: its := by
  unfold classifyLines at h
  cases hc : classifyLine cfg l with
  | error e => rw [hc] at h; simp at h
  | ok it =>
    rw [hc] at h
    cases hcs : classifyLines cfg ls with
    | error e => rw [hcs] at h; simp at h
    | ok its =>
      rw [hcs] at h
      simp only [Except.ok.injEq] at h
      exact ⟨it, its, rfl, rfl, h.symm⟩

theorem classifyLines_wf {cfg : Config} :
    ∀ {d : List Line} {items : List LineItem}, classifyLines cfg d = .ok items →
      ∀ it ∈ items, ItemWF cfg it := by
  intro d
  induction d with
  | nil =>
    intro items h it hit
    simp only [classifyLines, Except.ok.injEq] at h
    rw [← h] at hit
    simp at hit
  | cons l ls ih =>
    intro items h it hit
    obtain ⟨it1, its, hc, hcs, rfl⟩ := classifyLines_cons_elim h
    rcases List.mem_cons.mp hit with rfl | hmem
    · exact classifyLine_wf hc
    · exact ih hcs it hmem

theorem classifyLines_append_ok {cfg : Config} :
    ∀ {l1 l2 : List Line} {a b : List LineItem},
      classifyLines cfg l1 = .ok a → classifyLines cfg l2 = .ok b →
      classifyLines cfg (l1 ++ l2) = .ok (a ++ b) := by
  intro l1
  induction l1 with
  | nil =>
    intro l2 a b h1 h2
    simp only [classifyLines, Except.ok.injEq] at h1
    rw [← h1]
    simpa using h2
  | cons l ls ih =>
    intro l2 a b h1 h2
    obtain ⟨it, its, hc, hcs, rfl⟩ := classifyLines_cons_elim h1
    have := ih hcs h2
    simp only [List.cons_append]
    unfold classifyLines
    rw [hc, this]

/-! ## Round trip: rendered output reclassifies to the same items -/

theorem renderTiers_classify {cfg : Config} {sp : Nat} (hsp : 1 ≤ sp)
    {widths : List Nat} :
    ∀ {ts : List Tier} {ls : List Line}, (∀ t ∈ ts, TierWF cfg t) →
      renderTiers sp widths ts = some ls →
      classifyLines cfg ls = .ok (ts.map LineItem.tierLine) := by
  intro ts
  induction ts with
  | nil =>
    intro ls _ h
    simp only [renderTiers, Option.some.injEq] at h
    rw [← h]
    rfl
  | cons t ts ih =>
    intro ls hwf h
    simp only [renderTiers] at h
    cases hr1 : renderTier sp widths t with
    | none => rw [hr1] at h; simp at h
    | some l1 =>
      cases hrs : renderTiers sp widths ts with
      | none => rw [hr1, hrs] at h; simp at h
      | some ls1 =>
        rw [hr1, hrs] at h
        simp only [Option.some.injEq] at h
        rw [← h]
        have hc1 := renderTier_classify (hwf t (by simp)) hsp hr1
        have hcs := ih (fun g hg => hwf g (by simp [hg])) hrs
        unfold classifyLines
        rw [hc1, hcs]
        rfl

theorem renderBlocks_cons_elim {cfg : Config} {b : Block} {bs : List Block}
    {out : List Line} (h : renderBlocks cfg (b :: bs) = .ok out) :
    ∃ ls rest, renderBlock cfg b = .ok ls ∧ renderBlocks cfg bs = .ok rest ∧
      out = ls ++ rest := by
  unfold renderBlocks at h
  cases hb : renderBlock cfg b with
  | error e => rw [hb] at h; simp at h
  | ok ls =>
    rw [hb] at h
    cases hbs : renderBlocks cfg bs with
    | error e => rw [hbs] at h; simp at h
    | ok rest =>
      rw [hbs] at h
      simp only [Except.ok.injEq] at h
      exact ⟨ls, rest, rfl, rfl, h.symm⟩

theorem renderBlock_classify {cfg : Config} (hsp : 1 ≤ cfg.spacingConstant)
    {b : Block} {ls : List Line} (hwf : ∀ it ∈ blockItems b, ItemWF cfg it)
    (h : renderBlock cfg b = .ok ls) :
    classifyLines cfg ls = .ok (blockItems b) := by
  cases b with
  | passthru l =>
    simp only [renderBlock, Except.ok.injEq] at h
    rw [← h]
    have hp : classifyLine cfg l = .ok (.passthrough l) :=
      hwf (.passthrough l) (by simp [blockItems])
    unfold classifyLines
    rw [hp]
    rfl
  | record ts =>
    simp only [renderBlock] at h
    cases hrt : renderTiers cfg.spacingConstant (requiredWidths ts) ts with
    | none => rw [hrt] at h; simp at h
    | some ls1 =>
      rw [hrt] at h
      simp only [Except.ok.injEq] at h
      rw [← h]
      have hwf' : ∀ t ∈ ts, TierWF cfg t := by
        intro t ht
        exact hwf (.tierLine t) (by simp [blockItems, ht])
      exact renderTiers_classify hsp hwf' hrt

theorem renderBlocks_classify {cfg : Config} (hsp : 1 ≤ cfg.spacingConstant) :
    ∀ {bs : List Block} {out : List Line},
      (∀ it ∈ itemsOf bs, ItemWF cfg it) → renderBlocks cfg bs = .ok out →
      classifyLines cfg out = .ok (itemsOf bs) := by
  intro bs
  induction bs with
  | nil =>
    intro out _ h
    simp only [renderBlocks, Except.ok.injEq] at h
    rw [← h]
    rfl
  | cons b bs ih =>
    intro out hwf h
    obtain ⟨ls, rest, hb, hbs, rfl⟩ := renderBlocks_cons_elim h
    have h1 := renderBlock_classify hsp
      (fun it hit => hwf it (by rw [itemsOf_cons]; exact List.mem_append_left _ hit)) hb
    have h2 := ih
      (fun it hit => hwf it (by rw [itemsOf_cons]; exact List.mem_append_right _ hit)) hbs
    rw [itemsOf_cons]
    exact classifyLines_append_ok h1 h2

/-! ## The realign entry point -/

theorem realign_ok_elim {cfg : Config} {d out : List Line}
    (h : realign cfg d = .ok out) :
    ∃ items, classifyLines cfg d = .ok items ∧
      renderBlocks cfg (scanItems items [] []) = .ok out := by
  unfold realign at h
  cases hc : classifyLines cfg d with
  | error e => rw [hc] at h; simp at h
  | ok items =>
    rw [hc] at h
    exact ⟨items, rfl, h⟩

theorem realign_idem_core {cfg : Config} {d out : List Line}
    (hsp : 1 ≤ cfg.spacingConstant) (h : realign cfg d = .ok out) :
    realign cfg out = .ok out := by
  obtain ⟨items, hcl, hrb⟩ := realign_ok_elim h
  have hitems : itemsOf (scanItems items [] []) = items := by
    simpa using scanItems_content items [] []
  have hwf : ∀ it ∈ itemsOf (scanItems items [] []), ItemWF cfg it := by
    intro it hit
    rw [hitems] at hit
    exact classifyLines_wf hcl it hit
  have hcl2 : classifyLines cfg out = .ok items := by
    have := renderBlocks_classify hsp hwf hrb
    rw [hitems] at this
    exact this
  unfold realign
  rw [hcl2]
  exact hrb

/-! ## Lemmas about field start positions in rendered lines -/

theorem spaces_length (n : Nat) : (spaces n).length = n := by
  simp [spaces]

theorem getD_drop_cons {l : List Line} {i : Nat} (h : i < l.length) :
    l.drop i = l.getD i [] :: l.drop (i + 1) := by
  rw [List.drop_eq_getElem_cons h, List.getD_eq_getElem?_getD,
    List.getElem?_eq_getElem h]
  rfl

theorem natGetD_drop_cons {l : List Nat} {i : Nat} (h : i < l.length) :
    l.drop i = l.getD i 0 :: l.drop (i + 1) := by
  rw [List.drop_eq_getElem_cons h, List.getD_eq_getElem?_getD,
    List.getElem?_eq_getElem h]
  rfl

theorem renderFields_drop {sp : Nat} :
    ∀ (i : Nat) (fields : List Line) (widths : List Nat) (body : Line),
      renderFields sp fields widths = some body → i < fields.length →
      renderFields sp (fields.drop i) (widths.drop i) =
        some (body.drop (fieldsStartIdx sp fields widths i)) := by
  intro i
  induction i with
  | zero =>
    intro fields widths body h _
    simpa [fieldsStartIdx] using h
  | succ i ih =>
    intro fields widths body h hi
    cases fields with
    | nil => simp at hi
    | cons f fs =>
      cases widths with
      | nil => cases fs <;> simp [renderFields] at h
      | cons w ws =>
        cases fs with
        | nil => simp at hi
        | cons f2 fs2 =>
          simp only [renderFields] at h
          cases hrest : renderFields sp (f2 :: fs2) ws with
          | none => rw [hrest] at h; simp at h
          | some rest =>
            rw [hrest] at h
            simp only [Option.map_some', Option.some.injEq] at h
            have hstep : fieldsStartIdx sp (f :: f2 :: fs2) (w :: ws) (i + 1) =
                f.length + ((w - displayWidth f + sp) +
                  fieldsStartIdx sp (f2 :: fs2) ws i) := by
              rw [fieldsStartIdx]
              omega
            have hdrop : body.drop (fieldsStartIdx sp (f :: f2 :: fs2) (w :: ws) (i + 1)) =
                rest.drop (fieldsStartIdx sp (f2 :: fs2) ws i) := by
              rw [← h, hstep, List.append_assoc, List.drop_append]
              have heq : (w - displayWidth f + sp) + fieldsStartIdx sp (f2 :: fs2) ws i =
                  (spaces (w - displayWidth f + sp)).length +
                    fieldsStartIdx sp (f2 :: fs2) ws i := by
                rw [spaces_length]
              rw [heq, List.drop_append]
            rw [List.drop_succ_cons, List.drop_succ_cons, hdrop]
            exact ih (f2 :: fs2) ws rest hrest (by simpa using hi)

theorem renderFields_head {sp : Nat} {f : Line} {fs : List Line}
    {widths : List Nat} {body : Line}
    (h : renderFields sp (f :: fs) widths = some body) :
    body.take f.length = f := by
  cases widths with
  | nil => simp [renderFields] at h
  | cons w ws =>
    cases fs with
    | nil =>
      simp only [renderFields, Option.some.injEq] at h
      rw [← h, List.take_length]
    | cons f2 fs2 =>
      simp only [renderFields] at h
      cases hrest : renderFields sp (f2 :: fs2) ws with
      | none => rw [hrest] at h; simp at h
      | some rest =>
        rw [hrest] at h
        simp only [Option.map_some', Option.some.injEq] at h
        rw [← h, List.append_assoc, take_self_append]

theorem renderFields_take_width {sp : Nat} :
    ∀ (i : Nat) (fields : List Line) (widths : List Nat) (body : Line),
      renderFields sp fields widths = some body → i < fields.length →
      (∀ j, j < fields.length →
        displayWidth (fields.getD j []) ≤ widths.getD j 0) →
      displayWidth (body.take (fieldsStartIdx sp fields widths i)) =
        colOffset sp widths i := by
  intro i
  induction i with
  | zero =>
    intro fields widths body _ _ _
    simp [fieldsStartIdx, colOffset, displayWidth]
  | succ i ih =>
    intro fields widths body h hi hb
    cases fields with
    | nil => simp at hi
    | cons f fs =>
      cases widths with
      | nil => cases fs <;> simp [renderFields] at h
      | cons w ws =>
        cases fs with
        | nil => simp at hi
        | cons f2 fs2 =>
          simp only [renderFields] at h
          cases hrest : renderFields sp (f2 :: fs2) ws with
          | none => rw [hrest] at h; simp at h
          | some rest =>
            rw [hrest] at h
            simp only [Option.map_some', Option.some.injEq] at h
            have hwf : displayWidth f ≤ w := by
              have := hb 0 (by simp)
              simpa using this
            have hstep : fieldsStartIdx sp (f :: f2 :: fs2) (w :: ws) (i + 1) =
                f.length + ((spaces (w - displayWidth f + sp)).length +
                  fieldsStartIdx sp (f2 :: fs2) ws i) := by
              rw [fieldsStartIdx, spaces_length]
              omega
            have htake : body.take (fieldsStartIdx sp (f :: f2 :: fs2) (w :: ws) (i + 1)) =
                f ++ (spaces (w - displayWidth f + sp) ++
                  rest.take (fieldsStartIdx sp (f2 :: fs2) ws i)) := by
              rw [← h, hstep, List.append_assoc, List.take_append, List.take_append]
            rw [htake, displayWidth_append, displayWidth_append, displayWidth_spaces,
              ih (f2 :: fs2) ws rest hrest (by simpa using hi)
                (fun j hj => by simpa using hb (j + 1) (by simpa using hj))]
            rw [colOffset]
            omega

theorem renderTier_body {sp : Nat} {t : Tier} {widths : List Nat} {r : Line}
    {f : Line} {fs : List Line} (hf : t.fields = f :: fs)
    (hr : renderTier sp widths t = some r) :
    ∃ body, renderFields sp t.fields widths = some body ∧ r = tierHead t ++ body := by
  unfold renderTier at hr
  rw [hf] at hr
  cases hbody : renderFields sp (f :: fs) widths with
  | none => rw [hbody] at hr; simp at hr
  | some body =>
    rw [hbody] at hr
    simp only [Option.map_some', Option.some.injEq] at hr
    exact ⟨body, hf ▸ hbody, hr.symm⟩

theorem renderTier_field_decomp {sp : Nat} {t : Tier} {widths : List Nat}
    {r : Line} {i : Nat} (hi : i < t.fields.length)
    (hb : ∀ j, j < t.fields.length →
      displayWidth (t.fields.getD j []) ≤ widths.getD j 0)
    (hr : renderTier sp widths t = some r) :
    displayWidth (r.take (tierFieldStart sp t widths i)) =
      displayWidth (tierHead t) + colOffset sp widths i ∧
    (r.drop (tierFieldStart sp t widths i)).take ((t.fields.getD i []).length) =
      t.fields.getD i [] := by
  have hne : t.fields ≠ [] := by
    intro h0
    rw [h0] at hi
    simp at hi
  obtain ⟨f, fs, hf⟩ := List.exists_cons_of_ne_nil hne
  obtain ⟨body, hbody, rfl⟩ := renderTier_body hf hr
  constructor
  · rw [tierFieldStart, List.take_append, displayWidth_append]
    congr 1
    exact renderFields_take_width i t.fields widths body hbody hi hb
  · rw [tierFieldStart, List.drop_append]
    have hdrop := renderFields_drop i t.fields widths body hbody hi
    rw [getD_drop_cons hi] at hdrop
    exact renderFields_head hdrop

/-! ## Padding, last field, and trailing whitespace of rendered tiers -/

theorem getD_mem {l : List Line} {i : Nat} (h : i < l.length) :
    l.getD i [] ∈ l := by
  rw [List.getD_eq_getElem?_getD, List.getElem?_eq_getElem h]
  exact List.getElem_mem h

theorem fieldsStartIdx_succ {sp : Nat} :
    ∀ (i : Nat) (fields : List Line) (widths : List Nat),
      i + 1 < fields.length → fields.length ≤ widths.length →
      fieldsStartIdx sp fields widths (i + 1) =
        fieldsStartIdx sp fields widths i + (fields.getD i []).length +
          (widths.getD i 0 - displayWidth (fields.getD i []) + sp) := by
  intro i
  induction i with
  | zero =>
    intro fields widths h1 h2
    cases fields with
    | nil => simp at h1
    | cons f fs =>
      cases fs with
      | nil => simp at h1
      | cons f2 fs2 =>
        cases widths with
        | nil => simp at h2
        | cons w ws =>
          simp only [fieldsStartIdx, List.getD_cons_zero]
          omega
  | succ i ih =>
    intro fields widths h1 h2
    cases fields with
    | nil => simp at h1
    | cons f fs =>
      cases widths with
      | nil => simp at h2
      | cons w ws =>
        cases fs with
        | nil => simp at h1
        | cons f2 fs2 =>
          have hrec := ih (f2 :: fs2) ws (by simpa using h1) (by simpa using h2)
          simp only [fieldsStartIdx, List.getD_cons_succ]
          rw [hrec]
          omega

theorem take_spaces_append (n : Nat) (b : Line) : (spaces n ++ b).take n = spaces n := by
  have h := @List.take_append _ (spaces n) b 0
  rw [spaces_length, Nat.add_zero] at h
  rw [h]
  simp

theorem renderTier_pad_decomp {sp : Nat} {t : Tier} {widths : List Nat}
    {r : Line} {i : Nat} (hi : i + 1 < t.fields.length)
    (hlen : t.fields.length ≤ widths.length)
    (hr : renderTier sp widths t = some r) :
    (r.drop (tierFieldStart sp t widths i)).take
        ((t.fields.getD i []).length + padLen sp widths t i) =
      t.fields.getD i [] ++ spaces (padLen sp widths t i) := by
  have hi' : i < t.fields.length := by omega
  have hne : t.fields ≠ [] := by
    intro h0
    rw [h0] at hi'
    simp at hi'
  obtain ⟨f, fs, hf⟩ := List.exists_cons_of_ne_nil hne
  obtain ⟨body, hbody, rfl⟩ := renderTier_body hf hr
  rw [tierFieldStart, List.drop_append]
  have hdrop := renderFields_drop i t.fields widths body hbody hi'
  have hdnil : t.fields.drop (i + 1) ≠ [] := by
    apply List.ne_nil_of_length_pos
    rw [List.length_drop]
    omega
  obtain ⟨g2, gs2, hg⟩ := List.exists_cons_of_ne_nil hdnil
  rw [getD_drop_cons hi', hg] at hdrop
  have hiw : i < widths.length := by omega
  rw [natGetD_drop_cons hiw] at hdrop
  simp only [renderFields] at hdrop
  cases hrest : renderFields sp (g2 :: gs2) (widths.drop (i + 1)) with
  | none => rw [hrest] at hdrop; simp at hdrop
  | some rest2 =>
    rw [hrest] at hdrop
    simp only [Option.map_some', Option.some.injEq] at hdrop
    rw [← hdrop, padLen, List.append_assoc, List.take_append]
    congr 1
    exact take_spaces_append _ _

theorem renderTier_last_decomp {sp : Nat} {t : Tier} {widths : List Nat}
    {r : Line} (hne : t.fields ≠ []) (hlen : t.fields.length ≤ widths.length)
    (hr : renderTier sp widths t = some r) :
    r.drop (tierFieldStart sp t widths (t.fields.length - 1)) =
      t.fields.getD (t.fields.length - 1) [] := by
  obtain ⟨f, fs, hf⟩ := List.exists_cons_of_ne_nil hne
  obtain ⟨body, hbody, rfl⟩ := renderTier_body hf hr
  have hpos : 0 < t.fields.length := by
    rw [hf]
    simp
  have hi : t.fields.length - 1 < t.fields.length := by omega
  rw [tierFieldStart, List.drop_append]
  have hdrop := renderFields_drop (t.fields.length - 1) t.fields widths body hbody hi
  rw [getD_drop_cons hi] at hdrop
  have hdnil : t.fields.drop (t.fields.length - 1 + 1) = [] := by
    have : t.fields.length - 1 + 1 = t.fields.length := by omega
    rw [this, List.drop_length]
  rw [hdnil] at hdrop
  have hiw : t.fields.length - 1 < widths.length := by omega
  rw [natGetD_drop_cons hiw] at hdrop
  simp only [renderFields, Option.some.injEq] at hdrop
  exact hdrop.symm

theorem renderTier_getLast {cfg : Config} {sp : Nat} {t : Tier}
    {widths : List Nat} {r : Line} (hwf : TierWF cfg t)
    (hlen : t.fields.length ≤ widths.length)
    (hr : renderTier sp widths t = some r) :
    ∃ c, r.getLast? = some c ∧ isWS c = false := by
  have hm := isValidMarker_elim hwf.markerValid
  cases hf : t.fields with
  | nil =>
    unfold renderTier at hr
    rw [hf] at hr
    simp only [Option.some.injEq] at hr
    rw [← hr]
    refine ⟨t.marker.getLast hm.1, List.getLast?_eq_getLast_of_ne_nil hm.1, ?_⟩
    exact hm.2 _ (List.getLast_mem hm.1)
  | cons f fs =>
    have hne : t.fields ≠ [] := by
      rw [hf]
      simp
    have hlast := renderTier_last_decomp hne hlen hr
    have hfl : t.fields.getD (t.fields.length - 1) [] ∈ t.fields :=
      getD_mem (by rw [hf]; simp)
    have hflne : t.fields.getD (t.fields.length - 1) [] ≠ [] :=
      hwf.fieldsNonempty _ hfl
    have hsplit : r = r.take (tierFieldStart sp t widths (t.fields.length - 1)) ++
        t.fields.getD (t.fields.length - 1) [] := by
      rw [← hlast, List.take_append_drop]
    refine ⟨(t.fields.getD (t.fields.length - 1) []).getLast hflne, ?_, ?_⟩
    · rw [hsplit, List.getLast?_append_of_ne_nil _ hflne]
      exact List.getLast?_eq_getLast_of_ne_nil hflne
    · exact hwf.fieldsNoWS _ hfl _ (List.getLast_mem hflne)

/-! ## Records with no fields at all -/

theorem natMax_eq_zero_of {l : List Nat} (h : ∀ a ∈ l, a = 0) : natMax l = 0 := by
  induction l with
  | nil => rfl
  | cons b t ih =>
    have hb := h b (by simp)
    have ht := ih (fun a ha => h a (by simp [ha]))
    have hmx : natMax (b :: t) = max b (natMax t) := rfl
    rw [hmx, hb, ht]
    simp

theorem maxFieldCount_zero {ts : List Tier} (h : ∀ t ∈ ts, t.fields = []) :
    maxFieldCount ts = 0 := by
  apply natMax_eq_zero_of
  intro a ha
  obtain ⟨t, ht, rfl⟩ := List.mem_map.mp ha
  rw [h t ht]
  rfl

theorem requiredWidths_empty {ts : List Tier} (h : ∀ t ∈ ts, t.fields = []) :
    requiredWidths ts = [] := by
  rw [requiredWidths, maxFieldCount_zero h]
  rfl

theorem renderTiers_markers {sp : Nat} {widths : List Nat} :
    ∀ {ts : List Tier}, (∀ t ∈ ts, t.fields = []) →
      renderTiers sp widths ts = some (ts.map Tier.marker) := by
  intro ts
  induction ts with
  | nil => exact fun _ => rfl
  | cons t ts ih =>
    intro h
    have h1 : renderTier sp widths t = some t.marker := by
      unfold renderTier
      rw [h t (by simp)]
    rw [renderTiers, h1, ih (fun g hg => h g (by simp [hg]))]
    rfl

/-! ## Malformed lines and error propagation -/

theorem classifyLine_error_iff {cfg : Config} {l : Line} :
    (∃ e, classifyLine cfg l = .error e) ↔ lineMalformed cfg l = true := by
  unfold classifyLine lineMalformed
  cases hfm : findMarker cfg l with
  | some m => simp [hfm]
  | none => by_cases hmk : lineIsMarked cfg l = true <;> simp [hfm, hmk]

theorem classifyLine_error_val {cfg : Config} {l : Line} {e : FgError}
    (h : classifyLine cfg l = .error e) : e = .malformedLine l := by
  unfold classifyLine at h
  split at h
  next => simp at h
  next =>
    split at h
    next =>
      simp only [Except.error.injEq] at h
      exact h.symm
    next => simp at h

theorem classifyLines_error_of_malformed {cfg : Config} :
    ∀ {d : List Line} {l : Line}, l ∈ d → lineMalformed cfg l = true →
      ∃ l', l' ∈ d ∧ lineMalformed cfg l' = true ∧
        classifyLines cfg d = .error (.malformedLine l') := by
  intro d
  induction d with
  | nil =>
    intro l h
    simp at h
  | cons a d' ih =>
    intro l hmem hmal
    cases hc : classifyLine cfg a with
    | error e =>
      have he := classifyLine_error_val hc
      have hma : lineMalformed cfg a = true := classifyLine_error_iff.mp ⟨e, hc⟩
      refine ⟨a, by simp, hma, ?_⟩
      unfold classifyLines
      rw [hc, he]
    | ok it =>
      have hna : lineMalformed cfg a = false := by
        cases hma : lineMalformed cfg a with
        | false => rfl
        | true =>
          obtain ⟨e, he⟩ := classifyLine_error_iff.mpr hma
          rw [he] at hc
          cases hc
      rcases List.mem_cons.mp hmem with rfl | hmem'
      · rw [hmal] at hna
        cases hna
      · obtain ⟨l', hl', hml', hcs⟩ := ih hmem' hmal
        refine ⟨l', by simp [hl'], hml', ?_⟩
        unfold classifyLines
        rw [hc, hcs]

theorem realign_error_of_malformed {cfg : Config} {d : List Line} {l : Line}
    (hmem : l ∈ d) (hmal : lineMalformed cfg l = true) :
    ∃ l', l' ∈ d ∧ lineMalformed cfg l' = true ∧
      realign cfg d = .error (.malformedLine l') := by
  obtain ⟨l', h1, h2, h3⟩ := classifyLines_error_of_malformed hmem hmal
  refine ⟨l', h1, h2, ?_⟩
  unfold realign
  rw [h3]

theorem realign_ok_no_malformed {cfg : Config} {d out : List Line}
    (h : realign cfg d = .ok out) : ∀ l ∈ d, lineMalformed cfg l = false := by
  intro l hl
  cases hm : lineMalformed cfg l with
  | false => rfl
  | true =>
    obtain ⟨l', _, _, he⟩ := realign_error_of_malformed hl hm
    rw [he] at h
    cases h

/-! ## Marker-only lines -/

theorem classifyLine_marker_only {cfg : Config} {m : Line}
    (hmem : m ∈ cfg.tierMarkers) (hv : isValidMarker m = true) :
    classifyLine cfg m = .ok (.tierLine ⟨m, none, []⟩) := by
  have hfm : findMarker cfg m = some m := by
    have := findMarker_append [] hmem hv rfl
    simpa using this
  have h1 : classifyLine cfg m = .ok (.tierLine (mkTier m m)) := by
    unfold classifyLine
    rw [hfm]
  rw [h1, mkTier_eq_nil (by simp)]

theorem classifyLine_marker_delim {cfg : Config} {m : Line} {d : Codepoint}
    (hmem : m ∈ cfg.tierMarkers) (hv : isValidMarker m = true)
    (hd : isWS d = true) :
    classifyLine cfg (m ++ [d]) = .ok (.tierLine ⟨m, none, []⟩) := by
  have hfm : findMarker cfg (m ++ [d]) = some m :=
    findMarker_append [d] hmem hv (by simpa [boundaryOk] using hd)
  have h1 : classifyLine cfg (m ++ [d]) = .ok (.tierLine (mkTier m (m ++ [d]))) := by
    unfold classifyLine
    rw [hfm]
  rw [h1, mkTier_eq_cons (show (m ++ [d]).drop m.length = d :: [] from
    drop_self_append m [d])]
  simp [splitWS_nil]

theorem renderTier_no_fields (sp : Nat) (widths : List Nat) (m : Line)
    (dl : Option Codepoint) : renderTier sp widths ⟨m, dl, []⟩ = some m := rfl

theorem fieldWidthAt_no_fields (m : Line) (dl : Option Codepoint) (i : Nat) :
    fieldWidthAt ⟨m, dl, []⟩ i = 0 := by
  simp [fieldWidthAt, displayWidth]

/-! ## Content preservation and out-of-range fields -/

theorem getD_out_of_range {l : List Line} {i : Nat} (h : l.length ≤ i) :
    l.getD i [] = [] := by
  rw [List.getD_eq_getElem?_getD, List.getElem?_eq_none h]
  rfl

theorem fieldWidthAt_missing {t : Tier} {i : Nat} (h : t.fields.length ≤ i) :
    fieldWidthAt t i = 0 := by
  rw [fieldWidthAt, getD_out_of_range h]
  rfl

theorem renderTier_field_at {sp : Nat} {t : Tier} {widths : List Nat}
    {r : Line} {i : Nat} (hi : i < t.fields.length)
    (hr : renderTier sp widths t = some r) :
    (r.drop (tierFieldStart sp t widths i)).take ((t.fields.getD i []).length) =
      t.fields.getD i [] := by
  have hne : t.fields ≠ [] := by
    intro h0
    rw [h0] at hi
    simp at hi
  obtain ⟨f, fs, hf⟩ := List.exists_cons_of_ne_nil hne
  obtain ⟨body, hbody, rfl⟩ := renderTier_body hf hr
  rw [tierFieldStart, List.drop_append]
  have hdrop := renderFields_drop i t.fields widths body hbody hi
  rw [getD_drop_cons hi] at hdrop
  exact renderFields_head hdrop

theorem renderTier_filter {cfg : Config} {sp : Nat} {widths : List Nat}
    {l r : Line} {t : Tier} (hcl : classifyLine cfg l = .ok (.tierLine t))
    (hr : renderTier sp widths t = some r) :
    r.filter (fun c => !isWS c) = l.filter (fun c => !isWS c) := by
  obtain ⟨m, hfm, rfl⟩ := classifyLine_tier_elim hcl
  obtain ⟨hmem, hmatch⟩ := findMarker_spec hfm
  obtain ⟨hv, s, rfl, hb⟩ := markerMatches_elim hmatch
  have hmv := isValidMarker_elim hv
  have hmfilter : m.filter (fun c => !isWS c) = m :=
    List.filter_eq_self.mpr (fun c hc => by simp [hmv.2 c hc])
  have hdrop : (m ++ s).drop m.length = s := drop_self_append m s
  cases s with
  | nil =>
    rw [mkTier_eq_nil hdrop, renderTier_no_fields] at hr
    simp only [Option.some.injEq] at hr
    rw [← hr, List.append_nil, hmfilter]
  | cons d content =>
    have hdws : isWS d = true := by simpa [boundaryOk] using hb
    have hrhs : (m ++ d :: content).filter (fun c => !isWS c) =
        m ++ content.filter (fun c => !isWS c) := by
      rw [List.filter_append, hmfilter, List.filter_cons_of_neg (by simp [hdws])]
    rw [mkTier_eq_cons hdrop] at hr
    by_cases he : (splitWS content).isEmpty = true
    · have hempty : splitWS content = [] := List.isEmpty_iff.mp he
      rw [if_pos he, hempty, renderTier_no_fields] at hr
      simp only [Option.some.injEq] at hr
      have hfc : content.filter (fun c => !isWS c) = [] := by
        rw [← splitWS_flatten, hempty]
        rfl
      rw [← hr, hrhs, hfc, hmfilter, List.append_nil]
    · rw [if_neg he] at hr
      have hnempty : splitWS content ≠ [] := by simpa using he
      obtain ⟨f0, fs0, hsp0⟩ := List.exists_cons_of_ne_nil hnempty
      obtain ⟨body, hbody, rfl⟩ := renderTier_body
        (t := ⟨m, some d, splitWS content⟩) hsp0 hr
      have hws0 : ∀ g ∈ splitWS content, ∀ c ∈ g, isWS c = false :=
        fun g hg => (splitWS_mem hg).2
      have hbf : body.filter (fun c => !isWS c) = (splitWS content).flatten :=
        filter_renderFields sp (splitWS content) widths body hbody hws0
      have hlhs : (tierHead ⟨m, some d, splitWS content⟩ ++ body).filter
          (fun c => !isWS c) = m ++ (splitWS content).flatten := by
        have hhead : tierHead ⟨m, some d, splitWS content⟩ = m ++ [d] := rfl
        rw [hhead, List.append_assoc, List.filter_append, hmfilter]
        congr 1
        rw [show ([d] ++ body : Line) = d :: body from rfl,
          List.filter_cons_of_neg (by simp [hdws]), hbf]
      rw [hlhs, hrhs, ← splitWS_flatten]

/-! ## Claim theorems -/

/-- C1 (counterexample): the original claim — after realignment field `i`
starts at the same absolute display-width column in every pair of tiers of a
record — fails on a record whose tiers carry markers of different display
widths.  Here `alignCexDoc` realigns to itself, its two tiers form one
record, yet field 0 starts at display column 2 on the first line and at
display column 3 on the second. -/
theorem claim_C1_counterexample :
    realign alignCexCfg alignCexDoc = .ok alignCexDoc ∧
    classifyLines alignCexCfg alignCexDoc =
      .ok [.tierLine alignCexTier1, .tierLine alignCexTier2] ∧
    scanItems [.tierLine alignCexTier1, .tierLine alignCexTier2] [] [] =
      [.record [alignCexTier1, alignCexTier2]] ∧
    renderTier alignCexCfg.spacingConstant
      (requiredWidths [alignCexTier1, alignCexTier2]) alignCexTier1 =
      some (alignCexDoc.getD 0 []) ∧
    renderTier alignCexCfg.spacingConstant
      (requiredWidths [alignCexTier1, alignCexTier2]) alignCexTier2 =
      some (alignCexDoc.getD 1 []) ∧
    startColumn alignCexCfg.spacingConstant alignCexTier1
        (requiredWidths [alignCexTier1, alignCexTier2]) 0 (alignCexDoc.getD 0 []) ≠
      startColumn alignCexCfg.spacingConstant alignCexTier2
        (requiredWidths [alignCexTier1, alignCexTier2]) 0 (alignCexDoc.getD 1 []) :=
  ⟨rfl, rfl, rfl, rfl, rfl, by decide⟩

/-- C1 (amended): for every record and every pair of its tiers that both
have a field at index `i`, the display-width column at which field `i`
begins on the realigned line, measured from the end of the tier's verbatim
marker-and-delimiter head, is the same for both tiers: each equals the
shared offset `colOffset` determined by the record's required column widths
and the spacing constant.  Measured from the start of the line the columns
additionally differ by the display widths of the marker heads, so the
original absolute form holds exactly when the marker heads have equal
display width. -/
theorem claim_C1 {sp : Nat} {ts : List Tier} {t1 t2 : Tier} {i : Nat}
    {r1 r2 : Line} (ht1 : t1 ∈ ts) (ht2 : t2 ∈ ts)
    (hi1 : i < t1.fields.length) (hi2 : i < t2.fields.length)
    (hr1 : renderTier sp (requiredWidths ts) t1 = some r1)
    (hr2 : renderTier sp (requiredWidths ts) t2 = some r2) :
    startColumn sp t1 (requiredWidths ts) i r1 =
      displayWidth (tierHead t1) + colOffset sp (requiredWidths ts) i ∧
    startColumn sp t2 (requiredWidths ts) i r2 =
      displayWidth (tierHead t2) + colOffset sp (requiredWidths ts) i ∧
    (r1.drop (tierFieldStart sp t1 (requiredWidths ts) i)).take
        ((t1.fields.getD i []).length) = t1.fields.getD i [] ∧
    (r2.drop (tierFieldStart sp t2 (requiredWidths ts) i)).take
        ((t2.fields.getD i []).length) = t2.fields.getD i [] := by
  have hb1 : ∀ j, j < t1.fields.length →
      displayWidth (t1.fields.getD j []) ≤ (requiredWidths ts).getD j 0 :=
    fun j hj => requiredWidths_bound ht1 hj
  have hb2 : ∀ j, j < t2.fields.length →
      displayWidth (t2.fields.getD j []) ≤ (requiredWidths ts).getD j 0 :=
    fun j hj => requiredWidths_bound ht2 hj
  obtain ⟨hc1, hd1⟩ := renderTier_field_decomp hi1 hb1 hr1
  obtain ⟨hc2, hd2⟩ := renderTier_field_decomp hi2 hb2 hr2
  exact ⟨hc1, hc2, hd1, hd2⟩

/-- C1 (witness): the amended claim applied to the concrete realigned
record of `wDoc`: both tiers place field 1 at the shared offset past their
marker heads. -/
theorem claim_C1_witness :
    renderTier 1 (requiredWidths [wTierA, wTierB]) wTierA = some (wOut.getD 0 []) ∧
    renderTier 1 (requiredWidths [wTierA, wTierB]) wTierB = some (wOut.getD 1 []) ∧
    (startColumn 1 wTierA (requiredWidths [wTierA, wTierB]) 1 (wOut.getD 0 []) =
        displayWidth (tierHead wTierA) + colOffset 1 (requiredWidths [wTierA, wTierB]) 1 ∧
      startColumn 1 wTierB (requiredWidths [wTierA, wTierB]) 1 (wOut.getD 1 []) =
        displayWidth (tierHead wTierB) + colOffset 1 (requiredWidths [wTierA, wTierB]) 1 ∧
      ((wOut.getD 0 []).drop (tierFieldStart 1 wTierA (requiredWidths [wTierA, wTierB]) 1)).take
          ((wTierA.fields.getD 1 []).length) = wTierA.fields.getD 1 [] ∧
      ((wOut.getD 1 []).drop (tierFieldStart 1 wTierB (requiredWidths [wTierA, wTierB]) 1)).take
          ((wTierB.fields.getD 1 []).length) = wTierB.fields.getD 1 []) :=
  ⟨rfl, rfl, claim_C1 (by decide) (by decide) (by decide) (by decide) rfl rfl⟩

/-- C2: a field consisting of one base character followed by any number of
combining marks has display width exactly 1: every combining mark
contributes 0. -/
theorem claim_C2 (b m : Codepoint) (N : Nat) (hb : b.cls = CharClass.base)
    (hm : m.cls = CharClass.combiningMark) :
    displayWidth (b :: List.replicate N m) = 1 := by
  simp [displayWidth, List.map_replicate, List.sum_replicate, Codepoint.width,
    hb, hm, CharClass.width, smul_eq_mul]

/-- C2 (witness): a base letter with five combining acute accents still has
display width 1. -/
theorem claim_C2_witness : displayWidth (cpBase :: List.replicate 5 cpMark) = 1 :=
  claim_C2 cpBase cpMark 5 rfl rfl

/-- C3: realignment never drops, reorders, or alters a non-whitespace
character: for any tier tokenized from an input line and rendered against
any width list, the non-whitespace characters of the output line equal the
non-whitespace characters of the input line, in order. -/
theorem claim_C3 {cfg : Config} {sp : Nat} {widths : List Nat} {l r : Line}
    {t : Tier} (hcl : classifyLine cfg l = .ok (.tierLine t))
    (hr : renderTier sp widths t = some r) :
    r.filter (fun c => !isWS c) = l.filter (fun c => !isWS c) :=
  renderTier_filter hcl hr

/-- C3 (witness): the first line of `wDoc`, re-rendered against wider
columns, keeps exactly its non-whitespace characters. -/
theorem claim_C3_witness :
    classifyLine wCfg (wDoc.getD 0 []) = .ok (.tierLine wTierA) ∧
    renderTier 1 [5, 2] wTierA = some c3line ∧
    c3line.filter (fun c => !isWS c) =
      (wDoc.getD 0 []).filter (fun c => !isWS c) :=
  ⟨rfl, rfl, claim_C3
    (show classifyLine wCfg (wDoc.getD 0 []) = .ok (.tierLine wTierA) from rfl)
    (show renderTier 1 [5, 2] wTierA = some c3line from rfl)⟩

/-- C4 (counterexample): with a spacing constant of 0 — a configuration the
spec admits, since the spacing constant is just a configurable gap with
default 1 — realign succeeds but is not idempotent: the first pass emits the
two fields xx and y of the first tier with zero padding between them, the
merged field xxy then widens column 0 on the second pass and shifts the
second tier. -/
theorem claim_C4_counterexample :
    realign idemCexCfg idemCexDoc = .ok idemCexMid ∧
    realign idemCexCfg idemCexMid = .ok idemCexMid2 ∧
    idemCexMid2 ≠ idemCexMid :=
  ⟨rfl, rfl, by decide⟩

/-- C4 (amended): for every configuration whose spacing constant is at
least 1 (the spec's default), realign is idempotent on its own output:
whenever `realign cfg d` succeeds, realigning the output returns it
unchanged. -/
theorem claim_C4 {cfg : Config} {d out : List Line}
    (hsp : 1 ≤ cfg.spacingConstant) (h : realign cfg d = .ok out) :
    realign cfg out = .ok out :=
  realign_idem_core hsp h

/-- C4 (witness): realigning the diacritic-bearing document `wDoc` once
gives `wOut`; realigning `wOut` returns it byte-identically. -/
theorem claim_C4_witness :
    1 ≤ wCfg.spacingConstant ∧ realign wCfg wDoc = .ok wOut ∧
    realign wCfg wOut = .ok wOut :=
  ⟨by decide, rfl, claim_C4 (by decide)
    (show realign wCfg wDoc = .ok wOut from rfl)⟩

/-- C5: on a rendered tier line, every field that is not the last is
followed by exactly `widths[i] - display_width + spacing` literal spaces
(the next field starts immediately after them), the last field is followed
by nothing at all, and the line ends in a non-whitespace character. -/
theorem claim_C5 {cfg : Config} {sp : Nat} {widths : List Nat} {t : Tier}
    {r : Line} (hwf : TierWF cfg t) (hlen : t.fields.length ≤ widths.length)
    (hr : renderTier sp widths t = some r) :
    (∀ i, i + 1 < t.fields.length →
      (r.drop (tierFieldStart sp t widths i)).take
          ((t.fields.getD i []).length + padLen sp widths t i) =
        t.fields.getD i [] ++ spaces (padLen sp widths t i) ∧
      tierFieldStart sp t widths (i + 1) =
        tierFieldStart sp t widths i + (t.fields.getD i []).length +
          padLen sp widths t i ∧
      (r.drop (tierFieldStart sp t widths (i + 1))).take
          ((t.fields.getD (i + 1) []).length) = t.fields.getD (i + 1) []) ∧
    (t.fields ≠ [] →
      r.drop (tierFieldStart sp t widths (t.fields.length - 1)) =
        t.fields.getD (t.fields.length - 1) []) ∧
    (∃ c, r.getLast? = some c ∧ isWS c = false) := by
  refine ⟨?_, fun hne => renderTier_last_decomp hne hlen hr,
    renderTier_getLast hwf hlen hr⟩
  intro i hi
  refine ⟨renderTier_pad_decomp hi hlen hr, ?_, renderTier_field_at hi hr⟩
  rw [tierFieldStart, tierFieldStart,
    fieldsStartIdx_succ i t.fields widths hi hlen, padLen]
  omega

/-- C5 (witness): on the first rendered line of `wOut`, field 0 is followed
by exactly two spaces, the last field y ends the line, and the line has no
trailing whitespace. -/
theorem claim_C5_witness :
    renderTier 1 [3, 1] wTierA = some (wOut.getD 0 []) ∧
    ((wOut.getD 0 []).drop (tierFieldStart 1 wTierA [3, 1] 0)).take
        ((wTierA.fields.getD 0 []).length + padLen 1 [3, 1] wTierA 0) =
      wTierA.fields.getD 0 [] ++ spaces (padLen 1 [3, 1] wTierA 0) ∧
    (wOut.getD 0 []).drop (tierFieldStart 1 wTierA [3, 1] (wTierA.fields.length - 1)) =
      wTierA.fields.getD (wTierA.fields.length - 1) [] ∧
    (∃ c, (wOut.getD 0 []).getLast? = some c ∧ isWS c = false) := by
  have hwf : TierWF wCfg wTierA := by
    refine ⟨by decide, by decide, by decide, by decide, ?_, ?_, ?_⟩
    · intro d hd
      cases hd
      rfl
    · intro _
      rfl
    · intro h
      simp [wTierA] at h
  have h := claim_C5 hwf (by decide)
    (show renderTier 1 [3, 1] wTierA = some (wOut.getD 0 []) from rfl)
  exact ⟨rfl, (h.1 0 (by decide)).1, h.2.1 (by decide), h.2.2⟩

/-- C6: the ColumnModel: `requiredWidths` has one entry per column index up
to the record's maximum field count; entry `i` is `colWidth`, which is an
upper bound on every tier's field width at `i` and is attained by some tier
unless it is 0; a tier lacking field `i` contributes width 0; and a record
with zero tiers or no fields in any tier yields an empty width sequence and
renders as its bare marker lines, unchanged. -/
theorem claim_C6 (ts : List Tier) (i : Nat) :
    (requiredWidths ts).length = maxFieldCount ts ∧
    (i < maxFieldCount ts → (requiredWidths ts).getD i 0 = colWidth ts i) ∧
    (∀ t ∈ ts, fieldWidthAt t i ≤ colWidth ts i) ∧
    (colWidth ts i = 0 ∨ ∃ t ∈ ts, fieldWidthAt t i = colWidth ts i) ∧
    (∀ t ∈ ts, t.fields.length ≤ i → fieldWidthAt t i = 0) ∧
    ((∀ t ∈ ts, t.fields = []) → requiredWidths ts = [] ∧
      ∀ sp, renderTiers sp (requiredWidths ts) ts = some (ts.map Tier.marker)) := by
  refine ⟨requiredWidths_length ts, fun h => requiredWidths_getD h,
    fun t ht => fieldWidthAt_le_colWidth ht i, ?_,
    fun t _ h => fieldWidthAt_missing h, ?_⟩
  · rcases natMax_eq_zero_or_mem (ts.map (fun t => fieldWidthAt t i)) with h0 | hmem
    · exact Or.inl h0
    · right
      obtain ⟨t, ht, heq⟩ := List.mem_map.mp hmem
      exact ⟨t, ht, heq⟩
  · intro h
    exact ⟨requiredWidths_empty h, fun sp => renderTiers_markers h⟩

/-- C6 (witness): a record of two zero-field tiers yields the empty width
sequence and renders as its two bare marker lines. -/
theorem claim_C6_witness :
    requiredWidths [zTierA, zTierB] = [] ∧
    renderTiers 1 (requiredWidths [zTierA, zTierB]) [zTierA, zTierB] =
      some ([zTierA, zTierB].map Tier.marker) ∧
    fieldWidthAt zTierA 0 = 0 := by
  have h := claim_C6 [zTierA, zTierB] 0
  obtain ⟨he, hr⟩ := h.2.2.2.2.2 (by decide)
  exact ⟨he, hr 1, h.2.2.2.2.1 zTierA (by decide) (by decide)⟩

/-- C7: realign is atomic: it either returns a complete realigned document
or an error, never a partial document; any malformed line in the input
forces the whole run to abort with a `MalformedLineError`, and a successful
run certifies that no input line was malformed. -/
theorem claim_C7 (cfg : Config) (d : List Line) :
    ((∃ out, realign cfg d = .ok out) ∨ (∃ e, realign cfg d = .error e)) ∧
    (∀ l ∈ d, lineMalformed cfg l = true →
      ∃ l', l' ∈ d ∧ lineMalformed cfg l' = true ∧
        realign cfg d = .error (.malformedLine l')) ∧
    (∀ out, realign cfg d = .ok out → ∀ l ∈ d, lineMalformed cfg l = false) := by
  refine ⟨?_, fun l hl hm => realign_error_of_malformed hl hm,
    fun out h l hl => realign_ok_no_malformed h l hl⟩
  cases h : realign cfg d with
  | ok out => exact Or.inl ⟨out, rfl⟩
  | error e => exact Or.inr ⟨e, rfl⟩

/-- C7 (witness): a document containing the malformed line ax (the marker a
is not followed by a delimiter) aborts the whole run with a
`MalformedLineError`. -/
theorem claim_C7_witness :
    lineMalformed wCfg [cpA, cpX] = true ∧
    ∃ l', l' ∈ [[cpA, cpX], [cpB, spaceCp, cpY]] ∧
      lineMalformed wCfg l' = true ∧
      realign wCfg [[cpA, cpX], [cpB, spaceCp, cpY]] =
        .error (.malformedLine l') :=
  ⟨by decide,
    (claim_C7 wCfg [[cpA, cpX], [cpB, spaceCp, cpY]]).2.1 [cpA, cpX]
      (by decide) (by decide)⟩

/-- C8: classification raises an error exactly when a line begins with a
recognized marker (so one is required by context) but carries no tokenizable
marker; a recognized marker followed by nothing, or by its delimiter and no
content, is not an error: it yields a tier with zero fields that renders as
the bare marker and contributes width 0 to every column. -/
theorem claim_C8 (cfg : Config) (l m : Line) (d0 : Codepoint) (sp : Nat)
    (widths : List Nat) (hmem : m ∈ cfg.tierMarkers)
    (hv : isValidMarker m = true) (hd : isWS d0 = true) :
    ((∃ e, classifyLine cfg l = .error e) ↔
      (lineIsMarked cfg l = true ∧ findMarker cfg l = none)) ∧
    classifyLine cfg m = .ok (.tierLine ⟨m, none, []⟩) ∧
    classifyLine cfg (m ++ [d0]) = .ok (.tierLine ⟨m, none, []⟩) ∧
    renderTier sp widths ⟨m, none, []⟩ = some m ∧
    (∀ i, fieldWidthAt ⟨m, none, []⟩ i = 0) := by
  refine ⟨?_, classifyLine_marker_only hmem hv,
    classifyLine_marker_delim hmem hv hd,
    renderTier_no_fields sp widths m none,
    fun i => fieldWidthAt_no_fields m none i⟩
  rw [classifyLine_error_iff]
  simp [lineMalformed, Option.isNone_iff_eq_none]

/-- C8 (witness): the bare marker line a and the line a followed by one
space both tokenize to the zero-field tier, which renders as the bare
marker and contributes no width. -/
theorem claim_C8_witness :
    classifyLine wCfg [cpA] = .ok (.tierLine ⟨[cpA], none, []⟩) ∧
    classifyLine wCfg ([cpA] ++ [spaceCp]) = .ok (.tierLine ⟨[cpA], none, []⟩) ∧
    renderTier 1 [] ⟨[cpA], none, []⟩ = some [cpA] ∧
    fieldWidthAt ⟨[cpA], none, []⟩ 0 = 0 := by
  have h := claim_C8 wCfg [cpA, cpX] [cpA] spaceCp 1 []
    (by decide) (by decide) (by decide)
  exact ⟨h.2.1, h.2.2.1, h.2.2.2.1, h.2.2.2.2 0⟩

/-- C9: realign is deterministic: it is a pure function of its two
arguments, so any two runs on equal configuration and equal input text
produce equal output. -/
theorem claim_C9 (cfg1 cfg2 : Config) (d1 d2 : List Line) (hc : cfg1 = cfg2)
    (hd : d1 = d2) : realign cfg1 d1 = realign cfg2 d2 := by
  rw [hc, hd]

/-- C9 (witness): two runs of realign on `wDoc` with `wCfg` coincide. -/
theorem claim_C9_witness : realign wCfg wDoc = realign wCfg wDoc :=
  claim_C9 wCfg wCfg wDoc wDoc rfl rfl

/-- C10: the GUI entry script performs no realignment, tokenization, or
file I/O itself: importing the module under any other name has no effect,
running it as a script performs exactly the effects of `main` — one wx.App,
one ResultsWindow with no parent, then the wx main loop — and none of those
effects is a realign, tokenize, or file operation. -/
theorem claim_C10 (n : String) (hn : n ≠ "__main__") :
    moduleEffects n = [] ∧
    moduleEffects "__main__" = mainEffects ∧
    mainEffects.count GuiEffect.createWxApp = 1 ∧
    mainEffects.count (GuiEffect.createResultsWindow none) = 1 ∧
    (∀ p, GuiEffect.createResultsWindow p ∈ mainEffects → p = none) ∧
    (∀ e ∈ mainEffects, e ≠ GuiEffect.realignText ∧ e ≠ GuiEffect.tokenizeText ∧
      e ≠ GuiEffect.fileRead ∧ e ≠ GuiEffect.fileWrite) := by
  refine ⟨by simp [moduleEffects, hn], rfl, by decide, by decide, ?_, by decide⟩
  intro p hp
  simp only [mainEffects, List.mem_cons, List.not_mem_nil, or_false] at hp
  rcases hp with h | h | h
  · exact GuiEffect.noConfusion h
  · injection h
  · exact GuiEffect.noConfusion h

/-- C10 (witness): importing the script under the name formatgloss has no
effect, and running it as a script performs exactly the three GUI effects. -/
theorem claim_C10_witness :
    moduleEffects "formatgloss" = [] ∧ moduleEffects "__main__" = mainEffects := by
  have h := claim_C10 "formatgloss" (by decide)
  exact ⟨h.1, h.2.1⟩

end Formatgloss
